import Mathlib

/-!
Shallow embedding of the synthetic-tree MCTS code base (tree_env.py and
mcts.py) and proofs about it.  Pure numeric code is translated to functions
over rational numbers; the random draws of the original code (edge weights,
rollout samples, categorical sampling, tie breaking) are passed in as
explicit arguments, and the transcendental exp and log of numpy and scipy
are passed in as oracle functions on rationals so that every definition
stays executable.  Fallible code paths (Python IndexError and
ZeroDivisionError) are modelled with the Except monad.
-/

set_option maxRecDepth 4000

/-! ## Tree topology

tree_env.py builds the tree with networkx balanced_tree(k, d) as a DiGraph.
Modelled from the networkx semantics: nodes are labelled 0, 1, ... in
breadth-first order, so the tree with branching factor k and height d has
a root 0, the internal nodes are the first levels, and an internal node n
has successor list k*n + 1, ..., k*n + k in edge order. -/

/-! ## Sparse-max support selection (tents)

tree_env.py lines 215-230 (exact solver) and mcts.py lines 50-57 and
114-121 (search engine; the two engine copies are textually identical).
Python marks chosen entries with np.nan; since nan compares unequal to
every number, marking is modelled by an Option value set to none.  The
engine sorts ascending (np.sort) while the solver sorts descending
(np.flip(np.sort(...))). -/

/-- Number of nodes of the balanced k-ary tree of height d: a root plus
k subtrees of height d - 1. -/
def treeSize (k : ℕ) : ℕ → ℕ
  | 0 => 1
  | d + 1 => 1 + k * treeSize k d

/-- Number of internal nodes (nodes of depth < d): the first
treeSize k (d - 1) labels in breadth-first order. -/
def internalCount (k : ℕ) : ℕ → ℕ
  | 0 => 0
  | d + 1 => treeSize k d

/-- Successor list of node n in the breadth-first labelling, in the order
in which networkx enumerates the out-edges of n. -/
def childrenModel (k d n : ℕ) : List ℕ :=
  if n < internalCount k d then (List.range k).map (fun a => k * n + 1 + a) else []

/-- Out-degree of a node. -/
def outDeg (k d n : ℕ) : ℕ := (childrenModel k d n).length

/-- In-degree of a node, counted over all nodes of the tree. -/
def inDeg (k d n : ℕ) : ℕ :=
  ((List.range (treeSize k d)).filter (fun m => decide (n ∈ childrenModel k d m))).length

/-- tree_env.py line 50: the leaves list selects the nodes with
out-degree 0 and in-degree 1, scanning nodes in label order. -/
def leavesModel (k d : ℕ) : List ℕ :=
  (List.range (treeSize k d)).filter
    (fun n => decide (outDeg k d n = 0) && decide (inDeg k d n = 1))

/-- First index of the list holding the value some s, modelling
np.argwhere(temp == s).ravel()[0]. -/
def firstIdxEq (l : List (Option ℚ)) (s : ℚ) : Option ℕ :=
  match l with
  | [] => none
  | x :: t => if x = some s then some 0 else (firstIdxEq t s).map (fun i => i + 1)

/-- One iteration of the greedy support loop: test the feasibility
condition 1 + (i+1) * sorted[i] > sum(sorted[: i+1]) and, when it holds,
mark the first unmarked entry equal to sorted[i] and append its index. -/
def kappaStep (sorted : List ℚ) (st : List (Option ℚ) × List ℕ) (i : ℕ) :
    List (Option ℚ) × List ℕ :=
  let s := sorted.getD i 0
  if 1 + ((i : ℚ) + 1) * s > (sorted.take (i + 1)).sum then
    match firstIdxEq st.1 s with
    | some idx => (st.1.set idx none, st.2 ++ [idx])
    | none => st
  else st

/-- The whole support loop, run over a sorted copy of qs. -/
def kappaLoop (sorted qs : List ℚ) : List ℕ :=
  ((List.range sorted.length).foldl (kappaStep sorted) (qs.map some, [])).2

/-- Support set of the exact solver (tree_env.py lines 215-224): the values
are sorted in DESCENDING order before the greedy loop. -/
def solverKappa (means : List ℚ) : List ℕ :=
  kappaLoop (means.insertionSort (fun a b => a ≥ b)) means

/-- Support set of the search engine (mcts.py lines 50-57 and 114-121):
np.sort sorts ASCENDING, and the loop indexes sorted_q[i] in that
ascending order (the loop variable of enumerate(reversed(sorted_q)) is
unused). -/
def mctsKappa (qs : List ℚ) : List ℕ :=
  kappaLoop (qs.insertionSort (fun a b => a ≤ b)) qs

/-- Exact-solver sparse max (tree_env.py lines 226-228): the squared
deficit term is broadcast, i.e. subtracted from every support entry before
the final sum. -/
def solverSparseMax (v : List ℚ) : ℚ :=
  let κ := solverKappa v
  let vk := κ.map (fun i => v.getD i 0)
  (vk.map (fun x => x ^ 2 / 2 - (vk.sum - 1) ^ 2 / (2 * (κ.length : ℚ) ^ 2))).sum
    + 1 / 2

/-- Exact-solver tents value on a child-value vector x
(tree_env.py lines 232-239): temperature times the sparse max of x / tau. -/
def tentsSolverValue (τ : ℚ) (x : List ℚ) : ℚ :=
  τ * solverSparseMax (x.map (fun q => q / τ))

/-- Search-engine tents backup value (mcts.py lines 48-61), with the
exponential passed as an oracle rexp: operates on exp(Q / tau), halves the
raw exponentials and subtracts the per-entry squared deficit over the
engine support. -/
def tentsBackupV (rexp : ℚ → ℚ) (τ : ℚ) (qs : List ℚ) : ℚ :=
  let qExpTau := qs.map (fun q => rexp (q / τ))
  let κ := mctsKappa qs
  let κe := κ.map (fun i => qExpTau.getD i 0)
  τ * ((List.zipWith
      (fun a b => a / 2 - (b - 1) ^ 2 / (2 * (κ.length : ℚ) ^ 2)) qExpTau κe).sum
    + 1 / 2)

/-- Search-engine ments backup value (mcts.py line 41), with exp and log
oracles: tau * log(sum(exp(qs / tau))). -/
def mentsBackupV (rexp rlog : ℚ → ℚ) (τ : ℚ) (qs : List ℚ) : ℚ :=
  τ * rlog ((qs.map (fun q => rexp (q / τ))).sum)

/-- Search-engine rents backup value (mcts.py lines 43-47): the exponential
terms are weighted by the empirical visitation fractions. -/
def rentsBackupV (rexp rlog : ℚ → ℚ) (τ : ℚ) (visitFrac qs : List ℚ) : ℚ :=
  τ * rlog ((List.zipWith (fun r q => r * rexp (q / τ)) visitFrac qs).sum)


/-- np.clip on a scalar. -/
def clipQ (x lo hi : ℚ) : ℚ := min (max x lo) hi

/-- mcts.py lines 96-97: exploration mixing coefficient
clip(c * n_actions / log(sum(N) + 1 + 1e-10), 0, 1), log as oracle. -/
def lambdaCoeff (rlog : ℚ → ℚ) (c : ℚ) (nActions : ℕ) (ns : List ℕ) : ℚ :=
  clipQ (c * nActions / rlog ((ns.sum : ℚ) + 1 + 1 / 10000000000)) 0 1

/-- mcts.py lines 102 and 110: the residual correction
probs[randint(len(probs))] += 1 - probs.sum(), the random index being j. -/
def addResidual (probs : List ℚ) (j : ℕ) : List ℚ :=
  probs.set j (probs.getD j 0 + (1 - probs.sum))

/-- mcts.py line 101: ments selection probabilities before the residual
correction. -/
def mentsProbs (rexp : ℚ → ℚ) (τ : ℚ) (qs : List ℚ) (lam : ℚ) : List ℚ :=
  let e := qs.map (fun q => rexp (q / τ))
  e.map (fun ei => (1 - lam) * ei / e.sum + lam / (qs.length : ℚ))

/-- mcts.py lines 106-109: rents selection probabilities before the
residual correction; visitFrac holds the per-edge empirical fractions
N(edge) / (N(node) + 1e-10) of line 107. -/
def rentsProbs (rexp : ℚ → ℚ) (τ : ℚ) (qs visitFrac : List ℚ) (lam : ℚ) : List ℚ :=
  let e := qs.map (fun q => rexp (q / τ))
  List.zipWith (fun r ei => (1 - lam) * r * ei / e.sum + lam / (qs.length : ℚ)) visitFrac e

/-- mcts.py lines 113-126: tents selection probabilities.  The vector is
built over the engine support only and, unlike the ments and rents
branches, no residual correction is applied before sampling. -/
def tentsSelectProbs (rexp : ℚ → ℚ) (τ : ℚ) (qs : List ℚ) (lam : ℚ) : List ℚ :=
  let e := qs.map (fun q => rexp (q / τ))
  let kap := mctsKappa qs
  let ek := kap.map (fun i => e.getD i 0)
  let maxOmega := ek.map (fun x => max (x - (ek.map (fun y => y - 1)).sum / (kap.length : ℚ)) 0)
  maxOmega.map (fun m => (1 - lam) * m + lam / (qs.length : ℚ))

/-- CPython list indexing: negative indices address from the end, and
anything outside [-len, len) raises IndexError. -/
def pyIndex {α : Type} (l : List α) (i : ℤ) : Except String α :=
  let j : ℤ := if i < 0 then i + l.length else i
  if 0 ≤ j then
    match l.get? j.toNat with
    | some x => Except.ok x
    | none => Except.error "IndexError"
  else Except.error "IndexError"

/-- tree_env.py lines 86-97: step indexes the out-edge list of the cursor
node with the raw Python action index and moves to that edge target. -/
def stepModel (k d state : ℕ) (action : ℤ) : Except String ℕ :=
  pyIndex (childrenModel k d state) action

/-- tree_env.py lines 188, 194, 197, 200: the alpha-divergence solver
divides by alpha - 1; Python float division raises ZeroDivisionError
when alpha = 1. -/
def alphaDivCoef (α : ℚ) : Except String ℚ :=
  if α - 1 = 0 then Except.error "ZeroDivisionError" else Except.ok (α / (α - 1))

/-- Maximum of a nonempty rational list (np.max); 0 for the empty list,
which never reaches np.max on the modelled paths. -/
def maxListQ : List ℚ → ℚ
  | [] => 0
  | x :: t => t.foldl max x

/-- Minimum of a nonempty rational list (np.min); 0 for the empty list. -/
def minListQ : List ℚ → ℚ
  | [] => 0
  | x :: t => t.foldl min x

/-- tree_env.py line 55: min-max normalization of the leaf means; the
conditional expression evaluates lazily, so with at most one leaf the
divisions are never executed and the result is the fixed list [0.]. -/
def normalizeMeans (means : List ℚ) : List ℚ :=
  if 1 < means.length then
    means.map (fun m => (m - minListQ means) / (maxListQ means - minListQ means))
  else [0]

/-- tree_env.py lines 117-128 (_compute_mean): the raw mean of a node is
the sum of the edge weights along its root path; the parent of node
n + 1 in the breadth-first labelling is n / k. -/
def pathWeightTo (k : ℕ) (w : ℕ → ℕ → ℚ) : ℕ → ℚ
  | 0 => 0
  | n + 1 => pathWeightTo k w (n / k) + w (n / k) (n + 1)
  termination_by n => n
  decreasing_by exact Nat.lt_succ_of_le (Nat.div_le_self _ _)

/-- tree_env.py lines 130-144 (_assign_priors_maxs), sequentialised over a
worklist of sibling nodes, threading the mean and prior assignments and
returning the list of recursive return values (the children maxes).
Accessing successors[0] of a childless node is an IndexError; r is
recursion fuel (the Python recursion is bounded by the tree height). -/
def assignPMs (k d : ℕ) (leaves : List ℕ) (r : ℕ) (mean : ℕ → ℚ)
    (pr : ℕ → List ℚ) (l : List ℕ) : Except String (List ℚ × (ℕ → ℚ) × (ℕ → List ℚ)) :=
  match l with
  | [] => Except.ok ([], mean, pr)
  | node :: rest =>
    match childrenModel k d node with
    | [] => Except.error "IndexError"
    | s :: srest =>
      if s ∈ leaves then
        let ms := (s :: srest).map mean
        let mx := maxListQ ms
        let mean1 : ℕ → ℚ := fun n => if n = node then mx else mean n
        let pr1 : ℕ → List ℚ := fun n => if n = node then ms.map (fun m => m / ms.sum) else pr n
        match assignPMs k d leaves r mean1 pr1 rest with
        | Except.error e => Except.error e
        | Except.ok (vs, m2, p2) => Except.ok (mx :: vs, m2, p2)
      else
        match r with
        | 0 => Except.error "RecursionError"
        | r' + 1 =>
          match assignPMs k d leaves r' mean pr (s :: srest) with
          | Except.error e => Except.error e
          | Except.ok (vals, m2, p2) =>
            let mx := maxListQ vals
            let mean1 : ℕ → ℚ := fun n => if n = node then mx else m2 n
            let pr1 : ℕ → List ℚ := fun n => if n = node then vals.map (fun m => m / vals.sum) else p2 n
            match assignPMs k d leaves (r' + 1) mean1 pr1 rest with
            | Except.error e => Except.error e
            | Except.ok (vs, m3, p3) => Except.ok (mx :: vs, m3, p3)
  termination_by (r, l.length)

/-- tree_env.py __init__ (lines 26-69) for the uct family, whose solver
branch (lines 157-161) returns (max_mean, root children means): computes
the leaves list, raw and normalized leaf means, the max_mean fold of
lines 59-61, and the prior and mean assignment; tau and alpha are stored
without any validation and never used on this path.  Returns
(normalized leaf means, optimal_v_root, q_root). -/
def constructModelUct (k d : ℕ) (τ α : ℚ) (w : ℕ → ℕ → ℚ) :
    Except String (List ℚ × ℚ × List ℚ) :=
  let leaves := leavesModel k d
  let raw := leaves.map (pathWeightTo k w)
  let means := normalizeMeans raw
  let meanFn : ℕ → ℚ := fun n =>
    match leaves.findIdx? (fun m => decide (m = n)) with
    | some i => means.getD i 0
    | none => 0
  let maxMean := means.foldl max 0
  match assignPMs k d leaves d meanFn (fun _ => []) [0] with
  | Except.error e => Except.error e
  | Except.ok (_, mean2, _) => Except.ok (means, maxMean, (childrenModel k d 0).map mean2)

/-- Mutable state of a SyntheticTree instance: the per-node and per-edge
records of tree_env.py lines 26-51 plus the frozen construction outputs
and the cursor.  Node and edge maps are total functions on labels. -/
structure TreeState where
  nodeN : ℕ → ℕ
  nodeV : ℕ → ℚ
  edgeN : ℕ → ℕ → ℕ
  edgeQ : ℕ → ℕ → ℚ
  weight : ℕ → ℕ → ℚ
  mean : ℕ → ℚ
  priorVec : ℕ → List ℚ
  optimalVRoot : ℚ
  qRoot : List ℚ
  cursor : ℕ

/-- One backup iteration of mcts.py lines 27-65 for the edge e = (u, v):
set edge Q to the child V, bump edge N, recompute the parent V by the
per-algorithm rule of lines 33-61, bump parent N.  The final else branch
is unreachable for the four supported algorithm strings (the source
raises ValueError there). -/
def backupStep (alg : String) (k d : ℕ) (rexp rlog : ℚ → ℚ) (τ : ℚ)
    (st : TreeState) (e : ℕ × ℕ) : TreeState :=
  let u := e.1
  let v := e.2
  let st1 : TreeState := { st with
    edgeQ := fun a b => if a = u ∧ b = v then st.nodeV v else st.edgeQ a b,
    edgeN := fun a b => if a = u ∧ b = v then st.edgeN u v + 1 else st.edgeN a b }
  let outs := childrenModel k d u
  let qs := outs.map (fun c => st1.edgeQ u c)
  let newV : ℚ :=
    if alg = "uct" then
      (st1.nodeV u * (st1.nodeN u : ℚ) + st1.edgeQ u v) / ((st1.nodeN u : ℚ) + 1)
    else if alg = "ments" then mentsBackupV rexp rlog τ qs
    else if alg = "rents" then
      let vf := outs.map (fun c => (st1.edgeN u c : ℚ) / ((st1.nodeN u : ℚ) + 1 / 10000000000))
      rentsBackupV rexp rlog τ vf qs
    else if alg = "tents" then tentsBackupV rexp τ qs
    else st1.nodeV u
  { st1 with
    nodeV := fun n => if n = u then newV else st1.nodeV n,
    nodeN := fun n => if n = u then st1.nodeN u + 1 else st1.nodeN n }

/-- mcts.py _simulation (lines 19-67): rollout-update the leaf at the end
of the walked path, then fold the backup over the path in reverse.  The
walked path and the rollout draw are inputs (the selection policy only
reads the state and returns an in-range action, so every realisable walk
is some root-to-leaf path). -/
def simulate (alg : String) (k d : ℕ) (rexp rlog : ℚ → ℚ) (τ : ℚ)
    (path : List (ℕ × ℕ)) (rollout : ℚ) (st : TreeState) : TreeState :=
  match path.getLast? with
  | none => st
  | some last =>
    let leaf := last.2
    let st1 : TreeState := { st with
      nodeV := fun n => if n = leaf then
          (st.nodeV leaf * (st.nodeN leaf : ℚ) + rollout) / ((st.nodeN leaf : ℚ) + 1)
        else st.nodeV n,
      nodeN := fun n => if n = leaf then st.nodeN leaf + 1 else st.nodeN n }
    path.reverse.foldl (backupStep alg k d rexp rlog τ) st1

/-- tree_env.py reset (lines 71-84) with the default argument: the cursor
returns to the root. -/
def resetModel (st : TreeState) : TreeState := { st with cursor := 0 }

/-- mcts.py run (lines 11-17): reset the cursor and simulate, once per
entry of sims; each entry carries the walked path and the rollout draw of
that simulation. -/
def runModel (alg : String) (k d : ℕ) (rexp rlog : ℚ → ℚ) (τ : ℚ)
    (sims : List (List (ℕ × ℕ) × ℚ)) (st : TreeState) : TreeState :=
  sims.foldl (fun s pr => simulate alg k d rexp rlog τ pr.1 pr.2 (resetModel s)) st

/-- Target of the last edge of a path (the leaf a simulation ends in). -/
def pathLeaf (path : List (ℕ × ℕ)) : ℕ := (path.getLast?.getD (0, 0)).2

/-- The walks mcts.py _navigate can produce: a nonempty edge list starting
at the root, each edge going to a child of its source, consecutive edges
chained, ending in the leaves list. -/
def IsRootPath (k d : ℕ) (path : List (ℕ × ℕ)) : Prop :=
  path ≠ [] ∧
  path.head?.map Prod.fst = some 0 ∧
  (∀ e ∈ path, e.2 ∈ childrenModel k d e.1) ∧
  List.Chain' (fun e f => e.2 = f.1) path ∧
  pathLeaf path ∈ leavesModel k d

instance (k d : ℕ) (path : List (ℕ × ℕ)) : Decidable (IsRootPath k d path) :=
  inferInstanceAs (Decidable (path ≠ [] ∧
    path.head?.map Prod.fst = some 0 ∧
    (∀ e ∈ path, e.2 ∈ childrenModel k d e.1) ∧
    List.Chain' (fun e f : ℕ × ℕ => e.2 = f.1) path ∧
    pathLeaf path ∈ leavesModel k d))

/-- mcts.py _navigate (lines 69-76): select an action (the selection
policy is an oracle returning an in-range action index), step to that
child, stop as soon as the child is in the leaves list.  The Python
recursion is unbounded; fuel makes the recursion explicit, and the
theorems show fuel d already reaches a leaf. -/
def navModel (k d : ℕ) (oracle : ℕ → ℕ) : ℕ → ℕ → List (ℕ × ℕ)
  | 0, _ => []
  | fuel + 1, state =>
    let a := oracle state
    let next := (childrenModel k d state).getD a 0
    if next ∈ leavesModel k d then [(state, next)]
    else (state, next) :: navModel k d oracle fuel next

/-- Two states agree on every field the search engine never writes:
edge weights, node means, node priors, the exact solution and the root
children values. -/
def sameFrozen (s t : TreeState) : Prop :=
  s.weight = t.weight ∧ s.mean = t.mean ∧ s.priorVec = t.priorVec ∧
  s.optimalVRoot = t.optimalVRoot ∧ s.qRoot = t.qRoot

/-! ## Theorems -/

theorem treeSize_eq_geom (k d : ℕ) :
    treeSize k d = ∑ i ∈ Finset.range (d + 1), k ^ i := by
  induction d with
  | zero => simp [treeSize]
  | succ d ih =>
      rw [treeSize, ih, Finset.sum_range_succ' (fun i => k ^ i) (d + 1)]
      rw [Finset.mul_sum]
      rw [Finset.sum_congr rfl (fun i _ => (pow_succ' k i).symm)]
      simp [Nat.add_comm]

theorem treeSize_pos (k d : ℕ) : 1 ≤ treeSize k d := by
  cases d with
  | zero => simp [treeSize]
  | succ d => simp [treeSize]

theorem treeSize_succ_sub (k d : ℕ) :
    treeSize k (d + 1) - treeSize k d = k ^ (d + 1) := by
  rw [treeSize_eq_geom k (d + 1), treeSize_eq_geom k d, Finset.sum_range_succ]
  omega

theorem internalCount_le (k d : ℕ) (hk : 1 ≤ k) :
    internalCount k d ≤ treeSize k d := by
  cases d with
  | zero => simp [internalCount, treeSize]
  | succ d =>
      show treeSize k d ≤ 1 + k * treeSize k d
      nlinarith [treeSize_pos k d]

theorem mem_childrenModel {k d m n : ℕ} :
    n ∈ childrenModel k d m ↔ m < internalCount k d ∧ ∃ a, a < k ∧ n = k * m + 1 + a := by
  unfold childrenModel
  by_cases h : m < internalCount k d
  · rw [if_pos h]
    simp only [List.mem_map, List.mem_range]
    constructor
    · rintro ⟨a, ha, rfl⟩; exact ⟨h, a, ha, rfl⟩
    · rintro ⟨-, a, ha, rfl⟩; exact ⟨a, ha, rfl⟩
  · rw [if_neg h]; simp [h]

theorem childrenModel_parent {k d n : ℕ} (hk : 1 ≤ k) (hn : 1 ≤ n)
    (hsize : n < treeSize k d) : n ∈ childrenModel k d ((n - 1) / k) := by
  cases d with
  | zero =>
      have h1 : treeSize k 0 = 1 := rfl
      omega
  | succ d =>
      have hint : internalCount k (d + 1) = treeSize k d := rfl
      have hsz : treeSize k (d + 1) = 1 + k * treeSize k d := rfl
      rw [mem_childrenModel]
      have h1 : n - 1 < k * treeSize k d := by omega
      have hdiv : (n - 1) / k < treeSize k d := by
        rw [Nat.div_lt_iff_lt_mul (by omega : 0 < k)]
        rw [Nat.mul_comm] at h1
        exact h1
      refine ⟨by rw [hint]; exact hdiv, (n - 1) % k, Nat.mod_lt _ (by omega), ?_⟩
      have := Nat.div_add_mod (n - 1) k
      omega

theorem childrenModel_parent_unique {k d m n : ℕ} (hk : 1 ≤ k)
    (h : n ∈ childrenModel k d m) : m = (n - 1) / k ∧ 1 ≤ n := by
  rw [mem_childrenModel] at h
  obtain ⟨-, a, ha, rfl⟩ := h
  refine ⟨?_, by omega⟩
  have h1 : k * m + 1 + a - 1 = a + k * m := by omega
  rw [h1, Nat.add_mul_div_left a m (by omega : 0 < k), Nat.div_eq_of_lt ha]
  omega

theorem inDeg_root (k d : ℕ) : inDeg k d 0 = 0 := by
  unfold inDeg
  rw [List.filter_eq_nil_iff.mpr, List.length_nil]
  intro m _
  simp only [decide_eq_true_eq, mem_childrenModel]
  rintro ⟨-, a, -, h⟩
  omega

theorem range_filter_eq_singleton {N m : ℕ} (h : m < N) :
    (List.range N).filter (fun x => decide (x = m)) = [m] := by
  induction N with
  | zero => omega
  | succ N ih =>
      rw [List.range_succ, List.filter_append]
      by_cases hm : m < N
      · rw [ih hm]
        have hne : (decide (N = m)) = false := by
          simp only [decide_eq_false_iff_not]
          omega
        have : (List.filter (fun x => decide (x = m)) [N]) = [] := by
          simp [List.filter_cons, hne]
        rw [this, List.append_nil]
      · have hNm : N = m := by omega
        subst hNm
        have h1 : (List.range N).filter (fun x => decide (x = N)) = [] := by
          rw [List.filter_eq_nil_iff]
          intro a ha
          simp only [List.mem_range] at ha
          simp only [decide_eq_true_eq]
          omega
        rw [h1, List.nil_append]
        simp [List.filter]

theorem inDeg_nonroot {k d n : ℕ} (hk : 1 ≤ k) (hn : 1 ≤ n)
    (hsize : n < treeSize k d) : inDeg k d n = 1 := by
  unfold inDeg
  have hcongr : (List.range (treeSize k d)).filter
      (fun m => decide (n ∈ childrenModel k d m)) =
      (List.range (treeSize k d)).filter (fun m => decide (m = (n - 1) / k)) := by
    apply List.filter_congr
    intro m _
    simp only [decide_eq_decide]
    constructor
    · intro hmem; exact (childrenModel_parent_unique hk hmem).1
    · rintro rfl; exact childrenModel_parent hk hn hsize
  rw [hcongr, range_filter_eq_singleton (by
    calc (n - 1) / k ≤ n - 1 := Nat.div_le_self _ _
    _ < treeSize k d := by omega)]
  rfl

theorem outDeg_eq (k d n : ℕ) :
    outDeg k d n = if n < internalCount k d then k else 0 := by
  unfold outDeg childrenModel
  by_cases h : n < internalCount k d
  · rw [if_pos h, if_pos h, List.length_map, List.length_range]
  · rw [if_neg h, if_neg h, List.length_nil]

theorem leavesModel_eq {k d : ℕ} (hk : 1 ≤ k) (hd : 1 ≤ d) :
    leavesModel k d =
      (List.range (treeSize k d)).filter (fun n => decide (internalCount k d ≤ n)) := by
  have hint1 : 1 ≤ internalCount k d := by
    cases d with
    | zero => omega
    | succ d => exact treeSize_pos k d
  unfold leavesModel
  apply List.filter_congr
  intro n hn
  simp only [List.mem_range] at hn
  by_cases h : n < internalCount k d
  · have h2 : outDeg k d n = k := by rw [outDeg_eq, if_pos h]
    have h3 : ¬ (outDeg k d n = 0) := by omega
    have h5 : ¬ internalCount k d ≤ n := by omega
    simp [h3, h5]
  · have h2 : outDeg k d n = 0 := by rw [outDeg_eq, if_neg h]
    have h4 : inDeg k d n = 1 := inDeg_nonroot hk (by omega) hn
    have h5 : internalCount k d ≤ n := by omega
    simp [h2, h4, h5]

theorem range_filter_le_length (N I : ℕ) :
    ((List.range N).filter (fun n => decide (I ≤ n))).length = N - I := by
  induction N with
  | zero => simp
  | succ N ih =>
      rw [List.range_succ, List.filter_append, List.length_append, ih]
      by_cases h : I ≤ N
      · have : (List.filter (fun n => decide (I ≤ n)) [N]).length = 1 := by
          simp [List.filter, h]
        omega
      · have : (List.filter (fun n => decide (I ≤ n)) [N]).length = 0 := by
          simp [List.filter, h]
        omega

theorem leavesModel_length {k d : ℕ} (hk : 1 ≤ k) (hd : 1 ≤ d) :
    (leavesModel k d).length = k ^ d := by
  rw [leavesModel_eq hk hd, range_filter_le_length]
  obtain ⟨e, rfl⟩ : ∃ e, d = e + 1 := ⟨d - 1, by omega⟩
  show treeSize k (e + 1) - treeSize k e = k ^ (e + 1)
  exact treeSize_succ_sub k e

theorem mem_leavesModel {k d n : ℕ} (hk : 1 ≤ k) (hd : 1 ≤ d) :
    n ∈ leavesModel k d ↔ internalCount k d ≤ n ∧ n < treeSize k d := by
  rw [leavesModel_eq hk hd, List.mem_filter]
  simp only [List.mem_range, decide_eq_true_eq]
  tauto

/-- C6.  For every valid branching factor k and depth d >= 1 the tree has
exactly k^0 + ... + k^d nodes, and the leaves list coincides with the nodes
of out-degree 0 and has k^d elements.  (Amended: at d = 0 the leaves list is
empty because the in-degree-1 filter excludes the root, see the
counterexample.) -/
theorem c6_tree_counts (k d : ℕ) (hk : 1 ≤ k) (hd : 1 ≤ d) :
    treeSize k d = ∑ i ∈ Finset.range (d + 1), k ^ i ∧
    leavesModel k d =
      (List.range (treeSize k d)).filter (fun n => decide (outDeg k d n = 0)) ∧
    (leavesModel k d).length = k ^ d := by
  refine ⟨treeSize_eq_geom k d, ?_, leavesModel_length hk hd⟩
  rw [leavesModel_eq hk hd]
  apply List.filter_congr
  intro n hn
  simp only [decide_eq_decide, outDeg_eq]
  by_cases h : n < internalCount k d
  · rw [if_pos h]; omega
  · rw [if_neg h]; omega

/-- C6 counterexample.  At depth d = 0 (single-node tree) the root has
out-degree 0 but the exposed leaves list is empty (it also demands
in-degree 1), so it differs from the out-degree-0 node set and its size is
not k^0 = 1. -/
theorem c6_counterexample :
    leavesModel 2 0 = [] ∧
    leavesModel 2 0 ≠
      (List.range (treeSize 2 0)).filter (fun n => decide (outDeg 2 0 n = 0)) ∧
    (leavesModel 2 0).length ≠ 2 ^ 0 := by decide

/-- C6 witness: the amended statement evaluated at k = 2, d = 1. -/
theorem c6_tree_counts_witness :
    (1 ≤ 2 ∧ 1 ≤ 1) ∧
    (treeSize 2 1 = ∑ i ∈ Finset.range 2, 2 ^ i ∧
     leavesModel 2 1 =
       (List.range (treeSize 2 1)).filter (fun n => decide (outDeg 2 1 n = 0)) ∧
     (leavesModel 2 1).length = 2 ^ 1) :=
  ⟨by omega, c6_tree_counts 2 1 (by omega) (by omega)⟩

theorem kappaStep_snd_grows (sorted : List ℚ) (st : List (Option ℚ) × List ℕ) (i : ℕ) :
    ∃ t, (kappaStep sorted st i).2 = st.2 ++ t := by
  unfold kappaStep
  dsimp only
  split
  · split
    · exact ⟨_, rfl⟩
    · exact ⟨[], (List.append_nil _).symm⟩
  · exact ⟨[], (List.append_nil _).symm⟩

theorem foldl_kappaStep_grows (sorted : List ℚ) (l : List ℕ)
    (st : List (Option ℚ) × List ℕ) :
    ∃ t, (l.foldl (kappaStep sorted) st).2 = st.2 ++ t := by
  induction l generalizing st with
  | nil => exact ⟨[], (List.append_nil _).symm⟩
  | cons i rest ih =>
      rw [List.foldl_cons]
      obtain ⟨t1, h1⟩ := kappaStep_snd_grows sorted st i
      obtain ⟨t2, h2⟩ := ih (kappaStep sorted st i)
      exact ⟨t1 ++ t2, by rw [h2, h1, List.append_assoc]⟩

theorem firstIdxEq_mem {qs : List ℚ} {s : ℚ} (h : s ∈ qs) :
    ∃ i, firstIdxEq (qs.map some) s = some i := by
  induction qs with
  | nil => cases h
  | cons b t ih =>
      by_cases hb : (some b : Option ℚ) = some s
      · exact ⟨0, by simp [firstIdxEq, hb]⟩
      · have hbs : s ∈ t := by
          rcases List.mem_cons.mp h with h1 | h1
          · exact absurd (congrArg some h1.symm) hb
          · exact h1
        obtain ⟨i, hi⟩ := ih hbs
        exact ⟨i + 1, by simp [firstIdxEq, hb, hi]⟩

theorem kappaLoop_ne_nil {sorted qs : List ℚ} (hs : sorted ≠ [])
    (hmem : sorted.getD 0 0 ∈ qs) : kappaLoop sorted qs ≠ [] := by
  obtain ⟨a, t, rfl⟩ : ∃ a t, sorted = a :: t := by
    cases sorted with
    | nil => simp at hs
    | cons a t => exact ⟨a, t, rfl⟩
  have hmem' : a ∈ qs := hmem
  obtain ⟨i0, hi0⟩ := firstIdxEq_mem hmem'
  unfold kappaLoop
  rw [List.length_cons, List.range_succ_eq_map, List.foldl_cons]
  have hstep : (kappaStep (a :: t) (qs.map some, []) 0).2 = [i0] := by
    unfold kappaStep
    dsimp only
    have hcond : (1 : ℚ) + (((0 : ℕ) : ℚ) + 1) * (a :: t).getD 0 0 >
        ((a :: t).take (0 + 1)).sum := by
      simp
    rw [if_pos hcond]
    have hgetD : (a :: t).getD 0 0 = a := rfl
    rw [hgetD, hi0]
    rfl
  obtain ⟨t2, h2⟩ := foldl_kappaStep_grows (a :: t)
    ((List.range t.length).map Nat.succ) (kappaStep (a :: t) (qs.map some, []) 0)
  rw [h2, hstep]
  simp

theorem solverKappa_ne_nil {v : List ℚ} (hv : v ≠ []) : solverKappa v ≠ [] := by
  unfold solverKappa
  have hperm : (v.insertionSort (fun a b => a ≥ b)).Perm v := List.perm_insertionSort _ v
  have hs : v.insertionSort (fun a b => a ≥ b) ≠ [] := by
    intro h
    rw [h] at hperm
    exact hv (List.Perm.nil_eq hperm).symm
  apply kappaLoop_ne_nil hs
  cases h : v.insertionSort (fun a b => a ≥ b) with
  | nil => exact absurd h hs
  | cons a t =>
      have ha : a ∈ v := by
        apply hperm.mem_iff.mp
        rw [h]
        exact List.mem_cons_self a t
      show (a :: t).getD 0 0 ∈ v
      exact ha

theorem sum_map_sq_half_sub (l : List ℚ) (c : ℚ) :
    (l.map (fun x => x ^ 2 / 2 - c)).sum = (l.map (fun x => x ^ 2 / 2)).sum - l.length * c := by
  induction l with
  | nil => simp
  | cons a t ih =>
      simp only [List.map_cons, List.sum_cons, ih, List.length_cons]
      push_cast
      ring

/-- C2.  At Q = (0, 10) the engine support (mcts.py lines 50-57 and
114-121, ascending np.sort indexed in ascending order) is [0, 1], while
the descending-order rule of the claim and of the exact solver
(tree_env.py lines 215-224) yields [1]: the engine admits the index of
the smallest value, so the engine support is NOT computed by the
descending-order rule. -/
theorem c2_kappa_divergence :
    mctsKappa [0, 10] = [0, 1] ∧ solverKappa [0, 10] = [1] ∧
    mctsKappa [0, 10] ≠ solverKappa [0, 10] := by
  refine ⟨?_, ?_, ?_⟩
  · norm_num [mctsKappa, kappaLoop, kappaStep, firstIdxEq, List.insertionSort,
      List.orderedInsert, List.range_succ]
    simp
  · norm_num [solverKappa, kappaLoop, kappaStep, firstIdxEq, List.insertionSort,
      List.orderedInsert, List.range_succ]
  · have h1 : mctsKappa [0, 10] = [0, 1] := by
      norm_num [mctsKappa, kappaLoop, kappaStep, firstIdxEq, List.insertionSort,
        List.orderedInsert, List.range_succ]
      simp
    have h2 : solverKappa [0, 10] = [1] := by
      norm_num [solverKappa, kappaLoop, kappaStep, firstIdxEq, List.insertionSort,
        List.orderedInsert, List.range_succ]
    rw [h1, h2]
    simp

/-- C4.  At the Q vector (0, 0) with temperature 1 at a two-action node
(every exponential evaluated is exp(0) = 1, so the constant-one oracle
agrees with numpy exp at every point used), the engine backup
(mcts.py lines 48-61) assigns V = 3/2 while the exact-solver tents
operator (tree_env.py lines 215-230) yields 1/4 on the same vector: the
two formulas are not equivalent. -/
theorem c4_backup_divergence :
    tentsBackupV (fun _ => 1) 1 [0, 0] = 3 / 2 ∧
    tentsSolverValue 1 [0, 0] = 1 / 4 ∧
    tentsBackupV (fun _ => 1) 1 [0, 0] ≠ tentsSolverValue 1 [0, 0] := by
  have h1 : tentsBackupV (fun _ => 1) 1 [0, 0] = 3 / 2 := by
    norm_num [tentsBackupV, mctsKappa, kappaLoop, kappaStep, firstIdxEq,
      List.insertionSort, List.orderedInsert, List.range_succ]
    simp
    norm_num
  have h2 : tentsSolverValue 1 [0, 0] = 1 / 4 := by
    norm_num [tentsSolverValue, solverSparseMax, solverKappa, kappaLoop, kappaStep,
      firstIdxEq, List.insertionSort, List.orderedInsert, List.range_succ]
    simp
    norm_num
  refine ⟨h1, h2, ?_⟩
  rw [h1, h2]
  norm_num

/-- C3 counterexample.  At the scaled value vector (2, 2) with
temperature 1 the support is all of {0, 1}, the exact solver
(tree_env.py lines 226-228) returns 9/4, but the claim formula with the
squared deficit subtracted ONCE and divided by 2 |kappa|^2 gives 27/8. -/
theorem c3_counterexample :
    solverKappa [2, 2] = [0, 1] ∧
    tentsSolverValue 1 [2, 2] = 9 / 4 ∧
    tentsSolverValue 1 [2, 2] ≠
      1 * ((2 ^ 2 / 2 + 2 ^ 2 / 2) - (2 + 2 - 1) ^ 2 / (2 * ((2 : ℚ)) ^ 2) + 1 / 2) := by
  have h1 : solverKappa [2, 2] = [0, 1] := by
    norm_num [solverKappa, kappaLoop, kappaStep, firstIdxEq, List.insertionSort,
      List.orderedInsert, List.range_succ]
    simp
  have h2 : tentsSolverValue 1 [2, 2] = 9 / 4 := by
    norm_num [tentsSolverValue, solverSparseMax, solverKappa, kappaLoop, kappaStep,
      firstIdxEq, List.insertionSort, List.orderedInsert, List.range_succ]
    simp
    norm_num
  refine ⟨h1, h2, ?_⟩
  rw [h2]
  norm_num

/-- C3 amended.  For every nonempty input the exact tents solver value
equals temperature * ( sum over kappa of values^2 / 2
- (sum over kappa - 1)^2 / (2 |kappa|) + 1/2 ): the squared deficit is
subtracted once PER SUPPORT ENTRY, i.e. the total correction is divided
by 2 |kappa|, not 2 |kappa|^2. -/
theorem c3_tents_value (τ : ℚ) (x : List ℚ) (hx : x ≠ []) :
    tentsSolverValue τ x =
      τ * ((((solverKappa (x.map (fun q => q / τ))).map
              (fun i => (x.map (fun q => q / τ)).getD i 0 ^ 2 / 2)).sum
        - (((solverKappa (x.map (fun q => q / τ))).map
              (fun i => (x.map (fun q => q / τ)).getD i 0)).sum - 1) ^ 2
            / (2 * ((solverKappa (x.map (fun q => q / τ))).length : ℚ))
        + 1 / 2)) := by
  have hu : x.map (fun q => q / τ) ≠ [] := by
    simpa using hx
  have hκ : solverKappa (x.map (fun q => q / τ)) ≠ [] := solverKappa_ne_nil hu
  simp only [tentsSolverValue, solverSparseMax]
  set u := x.map (fun q => q / τ) with hudef
  set κ := solverKappa u with hκdef
  have hlen : (κ.length : ℚ) ≠ 0 := by
    have : κ.length ≠ 0 := fun h => hκ (List.length_eq_zero.mp h)
    exact_mod_cast this
  rw [sum_map_sq_half_sub]
  simp only [List.map_map, List.length_map, Function.comp_def]
  field_simp
  ring

/-- C3 witness: the amended formula evaluated at temperature 1 and value
vector (2, 2). -/
theorem c3_tents_value_witness :
    (([2, 2] : List ℚ) ≠ []) ∧
    tentsSolverValue 1 [2, 2] =
      1 * ((((solverKappa (([2, 2] : List ℚ).map (fun q => q / 1))).map
              (fun i => (([2, 2] : List ℚ).map (fun q => q / 1)).getD i 0 ^ 2 / 2)).sum
        - (((solverKappa (([2, 2] : List ℚ).map (fun q => q / 1))).map
              (fun i => (([2, 2] : List ℚ).map (fun q => q / 1)).getD i 0)).sum - 1) ^ 2
            / (2 * ((solverKappa (([2, 2] : List ℚ).map (fun q => q / 1))).length : ℚ))
        + 1 / 2)) :=
  ⟨by simp, c3_tents_value 1 [2, 2] (by simp)⟩

theorem list_sum_set (l : List ℚ) (j : ℕ) (v : ℚ) (hj : j < l.length) :
    (l.set j v).sum = l.sum - l.getD j 0 + v := by
  induction l generalizing j with
  | nil => simp at hj
  | cons a t ih =>
      cases j with
      | zero =>
          simp only [List.set_cons_zero, List.sum_cons, List.getD_cons_zero]
          ring
      | succ j =>
          simp only [List.set_cons_succ, List.sum_cons, List.getD_cons_succ]
          rw [ih j (by simpa using hj)]
          ring

theorem addResidual_sum {l : List ℚ} {j : ℕ} (hj : j < l.length) :
    (addResidual l j).sum = 1 := by
  unfold addResidual
  rw [list_sum_set _ _ _ hj]
  ring

theorem list_getD_nonneg {l : List ℚ} (hpos : ∀ p ∈ l, 0 ≤ p) (j : ℕ) :
    0 ≤ l.getD j 0 := by
  by_cases hj : j < l.length
  · rw [List.getD_eq_getElem l 0 hj]
    exact hpos _ (List.getElem_mem hj)
  · rw [List.getD_eq_default l 0 (by omega)]

theorem addResidual_nonneg {l : List ℚ} {j : ℕ} (hsum : l.sum ≤ 1)
    (hpos : ∀ p ∈ l, 0 ≤ p) : ∀ p ∈ addResidual l j, 0 ≤ p := by
  intro p hp
  unfold addResidual at hp
  rcases List.mem_or_eq_of_mem_set hp with h | h
  · exact hpos p h
  · have h1 : 0 ≤ l.getD j 0 := list_getD_nonneg hpos j
    rw [h]
    linarith

theorem sum_map_div_add (l : List ℚ) (a E b : ℚ) :
    (l.map (fun x => a * x / E + b)).sum = a * l.sum / E + l.length * b := by
  induction l with
  | nil => simp
  | cons y t ih =>
      simp only [List.map_cons, List.sum_cons, List.length_cons, ih]
      push_cast
      ring

theorem rents_sum_decomp {vf e : List ℚ} (hlen : vf.length = e.length) (a E b : ℚ) :
    (List.zipWith (fun r x => a * r * x / E + b) vf e).sum
      = a * (List.zipWith (fun r x => r * x) vf e).sum / E + e.length * b := by
  induction vf generalizing e with
  | nil =>
      cases e with
      | nil => simp
      | cons x es => simp at hlen
  | cons r t ih =>
      cases e with
      | nil => simp at hlen
      | cons x es =>
          simp only [List.zipWith_cons_cons, List.sum_cons, List.length_cons]
          rw [ih (by simpa using hlen)]
          push_cast
          ring

theorem rents_zip_sum_le {vf e : List ℚ} (hlen : vf.length = e.length)
    (hvf : ∀ r ∈ vf, 0 ≤ r ∧ r ≤ 1) (he : ∀ x ∈ e, 0 ≤ x) :
    (List.zipWith (fun r x => r * x) vf e).sum ≤ e.sum := by
  induction vf generalizing e with
  | nil =>
      cases e with
      | nil => simp
      | cons x es => simp at hlen
  | cons r t ih =>
      cases e with
      | nil => simp at hlen
      | cons x es =>
          simp only [List.zipWith_cons_cons, List.sum_cons]
          have h1 := hvf r (by simp)
          have h2 := he x (by simp)
          have h3 : (List.zipWith (fun r x => r * x) t es).sum ≤ es.sum :=
            ih (by simpa using hlen) (fun a ha => hvf a (by simp [ha]))
              (fun a ha => he a (by simp [ha]))
          nlinarith [h1.1, h1.2, h2]

theorem zipWith_nonneg {vf e : List ℚ} {f : ℚ → ℚ → ℚ}
    (hf : ∀ r x, 0 ≤ r → 0 ≤ x → 0 ≤ f r x)
    (hvf : ∀ r ∈ vf, 0 ≤ r) (he : ∀ x ∈ e, 0 ≤ x) :
    ∀ p ∈ List.zipWith f vf e, 0 ≤ p := by
  induction vf generalizing e with
  | nil => simp
  | cons r t ih =>
      cases e with
      | nil => simp
      | cons x es =>
          intro p hp
          rcases List.mem_cons.mp hp with rfl | hp
          · exact hf r x (hvf r (by simp)) (he x (by simp))
          · exact ih (fun a ha => hvf a (by simp [ha])) (fun a ha => he a (by simp [ha])) p hp

theorem clipQ_mem_unit (x : ℚ) : 0 ≤ clipQ x 0 1 ∧ clipQ x 0 1 ≤ 1 := by
  unfold clipQ
  exact ⟨le_min (le_max_right x 0) zero_le_one, min_le_right _ _⟩

theorem mentsProbs_sum {rexp : ℚ → ℚ} {τ lam : ℚ} {qs : List ℚ}
    (hq : qs ≠ []) (hrexp : ∀ q, 0 < rexp q) :
    (mentsProbs rexp τ qs lam).sum = 1 := by
  simp only [mentsProbs]
  set e := qs.map (fun q => rexp (q / τ)) with he
  have hel : e.length = qs.length := by simp [he]
  have hepos : ∀ x ∈ e, 0 < x := by
    intro x hx
    rw [he] at hx
    obtain ⟨q, -, rfl⟩ := List.mem_map.mp hx
    exact hrexp _
  have hE : 0 < e.sum := List.sum_pos _ hepos (by simp [he, hq])
  have hn : (qs.length : ℚ) ≠ 0 := by
    have : qs.length ≠ 0 := fun h => hq (List.length_eq_zero.mp h)
    exact_mod_cast this
  rw [sum_map_div_add e (1 - lam) e.sum (lam / qs.length), hel]
  have h1 : (1 - lam) * e.sum / e.sum = 1 - lam := by
    field_simp
  have h2 : (qs.length : ℚ) * (lam / qs.length) = lam := by
    field_simp
  rw [h1, h2]
  ring

theorem mentsProbs_nonneg {rexp : ℚ → ℚ} {τ lam : ℚ} {qs : List ℚ}
    (hrexp : ∀ q, 0 < rexp q) (hlam0 : 0 ≤ lam) (hlam1 : lam ≤ 1) :
    ∀ p ∈ mentsProbs rexp τ qs lam, 0 ≤ p := by
  intro p hp
  simp only [mentsProbs] at hp
  obtain ⟨ei, hei, rfl⟩ := List.mem_map.mp hp
  have h1 : 0 < ei := by
    obtain ⟨q, -, rfl⟩ := List.mem_map.mp hei
    exact hrexp _
  have hE : 0 ≤ (qs.map (fun q => rexp (q / τ))).sum := by
    apply List.sum_nonneg
    intro x hx
    obtain ⟨q, -, rfl⟩ := List.mem_map.mp hx
    exact (hrexp _).le
  have h3 : 0 ≤ (1 - lam) * ei / (qs.map (fun q => rexp (q / τ))).sum :=
    div_nonneg (mul_nonneg (by linarith) h1.le) hE
  have h4 : 0 ≤ lam / (qs.length : ℚ) := div_nonneg hlam0 (Nat.cast_nonneg _)
  linarith

theorem mentsProbs_length (rexp : ℚ → ℚ) (τ lam : ℚ) (qs : List ℚ) :
    (mentsProbs rexp τ qs lam).length = qs.length := by
  simp [mentsProbs]

theorem rentsProbs_length (rexp : ℚ → ℚ) (τ lam : ℚ) (qs vf : List ℚ)
    (hlen : vf.length = qs.length) :
    (rentsProbs rexp τ qs vf lam).length = qs.length := by
  simp [rentsProbs, hlen]

theorem rentsProbs_sum_le {rexp : ℚ → ℚ} {τ lam : ℚ} {qs vf : List ℚ}
    (hq : qs ≠ []) (hrexp : ∀ q, 0 < rexp q)
    (hlam0 : 0 ≤ lam) (hlam1 : lam ≤ 1)
    (hlen : vf.length = qs.length) (hvf : ∀ r ∈ vf, 0 ≤ r ∧ r ≤ 1) :
    (rentsProbs rexp τ qs vf lam).sum ≤ 1 := by
  simp only [rentsProbs]
  set e := qs.map (fun q => rexp (q / τ)) with he
  have hel : e.length = qs.length := by simp [he]
  have hepos : ∀ x ∈ e, 0 < x := by
    intro x hx
    rw [he] at hx
    obtain ⟨q, -, rfl⟩ := List.mem_map.mp hx
    exact hrexp _
  have hE : 0 < e.sum := List.sum_pos _ hepos (by simp [he, hq])
  have hlen2 : vf.length = e.length := by rw [hel]; exact hlen
  rw [rents_sum_decomp hlen2 (1 - lam) e.sum (lam / qs.length), hel]
  have hZle : (List.zipWith (fun r x => r * x) vf e).sum ≤ e.sum :=
    rents_zip_sum_le hlen2 hvf (fun x hx => (hepos x hx).le)
  have hZ0 : 0 ≤ (List.zipWith (fun r x => r * x) vf e).sum := by
    apply List.sum_nonneg
    exact zipWith_nonneg (fun r x hr hx => mul_nonneg hr hx)
      (fun r hr => (hvf r hr).1) (fun x hx => (hepos x hx).le)
  have hn : (qs.length : ℚ) ≠ 0 := by
    have : qs.length ≠ 0 := fun h => hq (List.length_eq_zero.mp h)
    exact_mod_cast this
  have h1 : (1 - lam) * (List.zipWith (fun r x => r * x) vf e).sum / e.sum ≤ 1 - lam := by
    rw [div_le_iff hE]
    nlinarith
  have h2 : (qs.length : ℚ) * (lam / qs.length) = lam := by field_simp
  linarith

theorem rentsProbs_nonneg {rexp : ℚ → ℚ} {τ lam : ℚ} {qs vf : List ℚ}
    (hrexp : ∀ q, 0 < rexp q) (hlam0 : 0 ≤ lam) (hlam1 : lam ≤ 1)
    (hvf : ∀ r ∈ vf, 0 ≤ r ∧ r ≤ 1) :
    ∀ p ∈ rentsProbs rexp τ qs vf lam, 0 ≤ p := by
  simp only [rentsProbs]
  have hE : 0 ≤ (qs.map (fun q => rexp (q / τ))).sum := by
    apply List.sum_nonneg
    intro x hx
    obtain ⟨q, -, rfl⟩ := List.mem_map.mp hx
    exact (hrexp _).le
  apply zipWith_nonneg
  · intro r x hr hx
    have h3 : 0 ≤ (1 - lam) * r * x / (qs.map (fun q => rexp (q / τ))).sum :=
      div_nonneg (mul_nonneg (mul_nonneg (by linarith) hr) hx) hE
    have h4 : 0 ≤ lam / (qs.length : ℚ) := div_nonneg hlam0 (Nat.cast_nonneg _)
    linarith
  · exact fun r hr => (hvf r hr).1
  · intro x hx
    obtain ⟨q, -, rfl⟩ := List.mem_map.mp hx
    exact (hrexp _).le

/-- C1 amended.  For the ments and rents branches of _select
(mcts.py lines 100-112) the probability vector, after the residual
1 - sum(probs) is added to one randomly chosen entry, sums to exactly 1
and has no negative entry, for any positive exponential oracle, any
mixing coefficient in [0, 1] (the computed lambdaCoeff always lies in
[0, 1], first conjunct) and any visitation-fraction vector with entries
in [0, 1].  The tents branch is excluded: it applies no residual
correction and its vector does not sum to 1, see the counterexample. -/
theorem c1_selection_probs (rexp rlog : ℚ → ℚ) (c τ lam : ℚ) (ns : List ℕ)
    (qs vf : List ℚ) (j : ℕ)
    (hq : qs ≠ []) (hrexp : ∀ q, 0 < rexp q)
    (hlam0 : 0 ≤ lam) (hlam1 : lam ≤ 1)
    (hlen : vf.length = qs.length)
    (hvf : ∀ r ∈ vf, 0 ≤ r ∧ r ≤ 1)
    (hj : j < qs.length) :
    (0 ≤ lambdaCoeff rlog c qs.length ns ∧ lambdaCoeff rlog c qs.length ns ≤ 1) ∧
    ((addResidual (mentsProbs rexp τ qs lam) j).sum = 1 ∧
      ∀ p ∈ addResidual (mentsProbs rexp τ qs lam) j, 0 ≤ p) ∧
    ((addResidual (rentsProbs rexp τ qs vf lam) j).sum = 1 ∧
      ∀ p ∈ addResidual (rentsProbs rexp τ qs vf lam) j, 0 ≤ p) := by
  refine ⟨clipQ_mem_unit _, ⟨?_, ?_⟩, ⟨?_, ?_⟩⟩
  · exact addResidual_sum (by rw [mentsProbs_length]; exact hj)
  · exact addResidual_nonneg (le_of_eq (mentsProbs_sum hq hrexp))
      (mentsProbs_nonneg hrexp hlam0 hlam1)
  · exact addResidual_sum (by rw [rentsProbs_length _ _ _ _ _ hlen]; exact hj)
  · exact addResidual_nonneg (rentsProbs_sum_le hq hrexp hlam0 hlam1 hlen hvf)
      (rentsProbs_nonneg hrexp hlam0 hlam1 hvf)

/-- C1 witness: the amended statement at a fresh two-action node with
constant exponential oracle 1, identity log oracle, zero exploration
coefficient, temperature 1, lambda 0 and random index 0. -/
theorem c1_selection_probs_witness :
    (([0, 0] : List ℚ) ≠ [] ∧ (0 : ℚ) ≤ 0 ∧ (0 : ℚ) ≤ 1 ∧ (0 : ℕ) < 2) ∧
    ((0 ≤ lambdaCoeff (fun x => x) 0 ([0, 0] : List ℚ).length [0, 0] ∧
        lambdaCoeff (fun x => x) 0 ([0, 0] : List ℚ).length [0, 0] ≤ 1) ∧
      ((addResidual (mentsProbs (fun _ => 1) 1 [0, 0] 0) 0).sum = 1 ∧
        ∀ p ∈ addResidual (mentsProbs (fun _ => 1) 1 [0, 0] 0) 0, 0 ≤ p) ∧
      ((addResidual (rentsProbs (fun _ => 1) 1 [0, 0] [1, 1] 0) 0).sum = 1 ∧
        ∀ p ∈ addResidual (rentsProbs (fun _ => 1) 1 [0, 0] [1, 1] 0) 0, 0 ≤ p)) :=
  ⟨⟨by simp, le_refl 0, by norm_num, by norm_num⟩,
    c1_selection_probs (fun _ => 1) (fun x => x) 0 1 0 [0, 0] [0, 0] [1, 1] 0
      (by simp) (fun _ => one_pos) (le_refl 0) (by norm_num)
      (by simp) (by intro r hr; constructor <;> (rcases List.mem_cons.mp hr with rfl | hr2) <;> simp_all)
      (by norm_num)⟩

/-- C1 counterexample.  The tents branch of _select at a fresh two-action
node (Q = (0, 0), every exponential is exp(0) = 1, exploration
coefficient 0 so the computed mixing coefficient is 0): the probability
vector handed to np.random.choice is (1, 1), which sums to 2, not 1, and
no residual correction is applied on this branch. -/
theorem c1_tents_counterexample :
    tentsSelectProbs (fun _ => 1) 1 [0, 0] (lambdaCoeff (fun x => x) 0 2 [0, 0]) = [1, 1] ∧
    (tentsSelectProbs (fun _ => 1) 1 [0, 0] (lambdaCoeff (fun x => x) 0 2 [0, 0])).sum ≠ 1 := by
  have hlam : lambdaCoeff (fun x => x) 0 2 ([0, 0] : List ℕ) = 0 := by
    norm_num [lambdaCoeff, clipQ]
  have hκ : mctsKappa [0, 0] = [0, 1] := by
    norm_num [mctsKappa, kappaLoop, kappaStep, firstIdxEq, List.insertionSort,
      List.orderedInsert, List.range_succ]
    simp
  have h1 : tentsSelectProbs (fun _ => 1) 1 [0, 0] (lambdaCoeff (fun x => x) 0 2 [0, 0]) = [1, 1] := by
    rw [hlam]
    simp only [tentsSelectProbs, hκ]
    norm_num
  refine ⟨h1, ?_⟩
  rw [h1]
  norm_num

/-- C5 counterexample.  Constructing the degenerate single-leaf tree
(here k = 2, d = 0, any weights) does NOT succeed: the leaves list is
empty (the root fails the in-degree-1 filter), and _assign_priors_maxs
reads successors[0] of the childless root, an IndexError, before the
solver ever runs. -/
theorem c5_counterexample :
    constructModelUct 2 0 1 1 (fun _ _ => 0) = Except.error "IndexError" := by
  have hc0 : childrenModel 2 0 0 = [] := by decide
  simp only [constructModelUct]
  rw [assignPMs, hc0]

/-- C5 amended.  The normalization guard of tree_env.py line 55 does
substitute the fixed list [0.] whenever there are fewer than two leaf
means, so no division by zero happens there; but construction of a
single-leaf tree with k = 0 or d = 0 still fails, with an IndexError on
the empty successor list of the root in _assign_priors_maxs, and the
empty leaves list means no node receives the substituted mean.  A
single-leaf tree built as k = 1, d = 1 does construct, and its sole
leaf's normalized mean is 0. -/
theorem c5_single_leaf (m τ α : ℚ) (w : ℕ → ℕ → ℚ) :
    normalizeMeans [m] = [0] ∧
    leavesModel 2 0 = [] ∧
    constructModelUct 2 0 τ α w = Except.error "IndexError" ∧
    constructModelUct 1 1 τ α w = Except.ok ([0], 0, [0]) := by
  have hc0 : childrenModel 2 0 0 = [] := by decide
  have hl11 : leavesModel 1 1 = [1] := by decide
  have hc11 : childrenModel 1 1 0 = [1] := by decide
  refine ⟨by simp [normalizeMeans], by decide, ?_, ?_⟩
  · simp only [constructModelUct]
    rw [assignPMs, hc0]
  · simp only [constructModelUct, hl11, hc11]
    rw [assignPMs, hc11]
    simp [normalizeMeans, maxListQ, List.findIdx?, assignPMs]

/-- C7 counterexample.  step at the root of a k = 2, d = 1 tree with the
negative action index -1 does not fail: Python negative indexing silently
returns the last out-edge target, node 2. -/
theorem c7_counterexample : stepModel 2 1 0 (-1) = Except.ok 2 := by rfl

/-- C7 amended.  step fails fast with an IndexError for any action index
at or above the out-degree and for any index below -out_degree, but an
action index in [-out_degree, -1] silently succeeds by Python negative
indexing; and alpha = 1 makes the alpha-divergence solver raise
ZeroDivisionError (division by alpha - 1).  Temperature is never
validated (constructModelUct takes any tau, see c5_single_leaf). -/
theorem c7_step_errors (k d state : ℕ) (a : ℤ) :
    ((outDeg k d state : ℤ) ≤ a → stepModel k d state a = Except.error "IndexError") ∧
    (a < -(outDeg k d state : ℤ) → stepModel k d state a = Except.error "IndexError") ∧
    (-(outDeg k d state : ℤ) ≤ a → a < 0 → ∃ c, stepModel k d state a = Except.ok c) ∧
    alphaDivCoef 1 = Except.error "ZeroDivisionError" := by
  have hlen : ((childrenModel k d state).length : ℤ) = (outDeg k d state : ℤ) := rfl
  refine ⟨?_, ?_, ?_, by simp [alphaDivCoef]⟩
  · intro h
    unfold stepModel pyIndex
    dsimp only
    rw [if_neg (show ¬ a < 0 by omega)]
    rw [if_pos (show (0 : ℤ) ≤ a by omega)]
    have hnone : (childrenModel k d state).get? a.toNat = none := by
      rw [List.get?_eq_none]
      omega
    rw [hnone]
  · intro h
    unfold stepModel pyIndex
    dsimp only
    rw [if_pos (show a < 0 by omega)]
    rw [if_neg (show ¬ (0 : ℤ) ≤ a + (childrenModel k d state).length by omega)]
  · intro h1 h2
    unfold stepModel pyIndex
    dsimp only
    rw [if_pos (show a < 0 by omega)]
    rw [if_pos (show (0 : ℤ) ≤ a + (childrenModel k d state).length by omega)]
    have hlt : (a + (childrenModel k d state).length).toNat < (childrenModel k d state).length := by
      omega
    rw [List.get?_eq_get hlt]
    exact ⟨_, rfl⟩

/-- C7 witness: the amended statement at the root of the k = 2, d = 1
tree with action -1 and at alpha = 1. -/
theorem c7_step_errors_witness :
    ((-(outDeg 2 1 0 : ℤ) ≤ -1 ∧ (-1 : ℤ) < 0) ∧
      (∃ c, stepModel 2 1 0 (-1) = Except.ok c)) ∧
    alphaDivCoef 1 = Except.error "ZeroDivisionError" :=
  ⟨⟨⟨by decide, by decide⟩, (c7_step_errors 2 1 0 (-1)).2.2.1 (by decide) (by decide)⟩,
    (c7_step_errors 2 1 0 (-1)).2.2.2⟩

theorem sameFrozen_rfl (s : TreeState) : sameFrozen s s :=
  ⟨rfl, rfl, rfl, rfl, rfl⟩

theorem sameFrozen_trans {s t u : TreeState} (h1 : sameFrozen s t)
    (h2 : sameFrozen t u) : sameFrozen s u := by
  obtain ⟨a1, b1, c1, d1, e1⟩ := h1
  obtain ⟨a2, b2, c2, d2, e2⟩ := h2
  exact ⟨a1.trans a2, b1.trans b2, c1.trans c2, d1.trans d2, e1.trans e2⟩

theorem backupStep_frozen (alg : String) (k d : ℕ) (rexp rlog : ℚ → ℚ) (τ : ℚ)
    (st : TreeState) (e : ℕ × ℕ) :
    sameFrozen (backupStep alg k d rexp rlog τ st e) st :=
  ⟨rfl, rfl, rfl, rfl, rfl⟩

theorem foldl_backupStep_frozen (alg : String) (k d : ℕ) (rexp rlog : ℚ → ℚ)
    (τ : ℚ) (l : List (ℕ × ℕ)) (st : TreeState) :
    sameFrozen (l.foldl (backupStep alg k d rexp rlog τ) st) st := by
  induction l generalizing st with
  | nil => exact sameFrozen_rfl st
  | cons e t ih =>
      rw [List.foldl_cons]
      exact sameFrozen_trans (ih _) (backupStep_frozen alg k d rexp rlog τ st e)

theorem simulate_frozen (alg : String) (k d : ℕ) (rexp rlog : ℚ → ℚ) (τ : ℚ)
    (path : List (ℕ × ℕ)) (v : ℚ) (st : TreeState) :
    sameFrozen (simulate alg k d rexp rlog τ path v st) st := by
  unfold simulate
  cases path.getLast? with
  | none => exact sameFrozen_rfl st
  | some last =>
      exact sameFrozen_trans (foldl_backupStep_frozen alg k d rexp rlog τ _ _)
        ⟨rfl, rfl, rfl, rfl, rfl⟩

theorem runModel_frozen (alg : String) (k d : ℕ) (rexp rlog : ℚ → ℚ) (τ : ℚ)
    (sims : List (List (ℕ × ℕ) × ℚ)) (st : TreeState) :
    sameFrozen (runModel alg k d rexp rlog τ sims st) st := by
  unfold runModel
  induction sims generalizing st with
  | nil => exact sameFrozen_rfl st
  | cons p t ih =>
      rw [List.foldl_cons]
      refine sameFrozen_trans (ih _) ?_
      exact sameFrozen_trans (simulate_frozen alg k d rexp rlog τ p.1 p.2 _)
        (sameFrozen_rfl st)

/-- C8.  Running the search engine, for any algorithm string, any oracle
functions, any number of simulations and any walked paths and rollouts,
leaves every edge weight, every node mean, every node prior,
optimal_v_root and q_root exactly as they were: only N, Q and V entries
(and the cursor) are written. -/
theorem c8_frame (alg : String) (k d : ℕ) (rexp rlog : ℚ → ℚ) (τ : ℚ)
    (sims : List (List (ℕ × ℕ) × ℚ)) (st : TreeState) :
    (runModel alg k d rexp rlog τ sims st).weight = st.weight ∧
    (runModel alg k d rexp rlog τ sims st).mean = st.mean ∧
    (runModel alg k d rexp rlog τ sims st).priorVec = st.priorVec ∧
    (runModel alg k d rexp rlog τ sims st).optimalVRoot = st.optimalVRoot ∧
    (runModel alg k d rexp rlog τ sims st).qRoot = st.qRoot :=
  runModel_frozen alg k d rexp rlog τ sims st

theorem backupStep_nodeN (alg : String) (k d : ℕ) (rexp rlog : ℚ → ℚ) (τ : ℚ)
    (st : TreeState) (e : ℕ × ℕ) (x : ℕ) :
    (backupStep alg k d rexp rlog τ st e).nodeN x =
      st.nodeN x + (if x = e.1 then 1 else 0) := by
  show (if x = e.1 then st.nodeN e.1 + 1 else st.nodeN x) = _
  by_cases h : x = e.1
  · rw [if_pos h, if_pos h, h]
  · rw [if_neg h, if_neg h]
    omega

theorem backupStep_edgeN (alg : String) (k d : ℕ) (rexp rlog : ℚ → ℚ) (τ : ℚ)
    (st : TreeState) (e : ℕ × ℕ) (a b : ℕ) :
    (backupStep alg k d rexp rlog τ st e).edgeN a b =
      st.edgeN a b + (if a = e.1 ∧ b = e.2 then 1 else 0) := by
  show (if a = e.1 ∧ b = e.2 then st.edgeN e.1 e.2 + 1 else st.edgeN a b) = _
  by_cases h : a = e.1 ∧ b = e.2
  · rw [if_pos h, if_pos h, h.1, h.2]
  · rw [if_neg h, if_neg h]
    omega

theorem foldl_backupStep_nodeN (alg : String) (k d : ℕ) (rexp rlog : ℚ → ℚ)
    (τ : ℚ) (l : List (ℕ × ℕ)) (st : TreeState) (x : ℕ) :
    (l.foldl (backupStep alg k d rexp rlog τ) st).nodeN x =
      st.nodeN x + l.countP (fun f => decide (x = f.1)) := by
  induction l generalizing st with
  | nil => simp
  | cons e t ih =>
      rw [List.foldl_cons, ih, backupStep_nodeN, List.countP_cons]
      by_cases h : x = e.1 <;> simp [h] <;> omega

theorem foldl_backupStep_edgeN (alg : String) (k d : ℕ) (rexp rlog : ℚ → ℚ)
    (τ : ℚ) (l : List (ℕ × ℕ)) (st : TreeState) (a b : ℕ) :
    (l.foldl (backupStep alg k d rexp rlog τ) st).edgeN a b =
      st.edgeN a b + l.countP (fun f => decide (a = f.1 ∧ b = f.2)) := by
  induction l generalizing st with
  | nil => simp
  | cons e t ih =>
      rw [List.foldl_cons, ih, backupStep_edgeN, List.countP_cons]
      by_cases h : a = e.1 ∧ b = e.2 <;> simp [h] <;> omega

theorem countP_reverse_eq (l : List (ℕ × ℕ)) (p : ℕ × ℕ → Bool) :
    l.reverse.countP p = l.countP p := by
  induction l with
  | nil => simp
  | cons e t ih =>
      rw [List.reverse_cons, List.countP_append, ih, List.countP_cons]
      by_cases hp : p e
      · simp [List.countP_cons, List.countP_nil, hp]
      · simp [List.countP_cons, List.countP_nil, hp]

theorem simulate_nodeN (alg : String) (k d : ℕ) (rexp rlog : ℚ → ℚ) (τ : ℚ)
    (path : List (ℕ × ℕ)) (v : ℚ) (st : TreeState) (x : ℕ)
    (hne : path ≠ []) :
    (simulate alg k d rexp rlog τ path v st).nodeN x =
      st.nodeN x + path.countP (fun f => decide (x = f.1)) +
        (if x = pathLeaf path then 1 else 0) := by
  obtain ⟨y, hy⟩ : ∃ y, path.getLast? = some y := by
    cases hopt : path.getLast? with
    | some y => exact ⟨y, rfl⟩
    | none => exact absurd (List.getLast?_eq_none_iff.mp hopt) hne
  unfold simulate
  rw [hy]
  dsimp only
  rw [foldl_backupStep_nodeN, countP_reverse_eq]
  have hleaf : pathLeaf path = y.2 := by
    unfold pathLeaf
    rw [hy]
    rfl
  rw [hleaf]
  show (if x = y.2 then st.nodeN y.2 + 1 else st.nodeN x) + _ = _
  by_cases h : x = y.2
  · rw [if_pos h, if_pos h, h]
    omega
  · rw [if_neg h, if_neg h]
    omega

theorem simulate_edgeN (alg : String) (k d : ℕ) (rexp rlog : ℚ → ℚ) (τ : ℚ)
    (path : List (ℕ × ℕ)) (v : ℚ) (st : TreeState) (a b : ℕ)
    (hne : path ≠ []) :
    (simulate alg k d rexp rlog τ path v st).edgeN a b =
      st.edgeN a b + path.countP (fun f => decide (a = f.1 ∧ b = f.2)) := by
  obtain ⟨y, hy⟩ : ∃ y, path.getLast? = some y := by
    cases hopt : path.getLast? with
    | some y => exact ⟨y, rfl⟩
    | none => exact absurd (List.getLast?_eq_none_iff.mp hopt) hne
  unfold simulate
  rw [hy]
  dsimp only
  rw [foldl_backupStep_edgeN, countP_reverse_eq]

theorem rootPath_pairwise {k d : ℕ} {path : List (ℕ × ℕ)} (hk : 1 ≤ k)
    (hchild : ∀ e ∈ path, e.2 ∈ childrenModel k d e.1)
    (hchain : List.Chain' (fun e f : ℕ × ℕ => e.2 = f.1) path) :
    List.Pairwise (fun e f : ℕ × ℕ => e.1 < f.1) path := by
  have hlt : ∀ e ∈ path, e.1 < e.2 := by
    intro e he
    obtain ⟨-, a, -, h2⟩ := mem_childrenModel.mp (hchild e he)
    have h3 : e.1 ≤ k * e.1 := Nat.le_mul_of_pos_left e.1 (by omega)
    omega
  have hchain2 : List.Chain' (fun e f : ℕ × ℕ => e.1 < f.1) path := by
    induction path with
    | nil => exact List.chain'_nil
    | cons a t ih =>
        cases t with
        | nil => simp
        | cons b t2 =>
            rw [List.chain'_cons] at hchain ⊢
            refine ⟨?_, ih (fun e he => hchild e (by simp [List.mem_cons] at he ⊢; tauto))
              hchain.2 (fun e he => hlt e (by simp [List.mem_cons] at he ⊢; tauto))⟩
            have h1 : a.1 < a.2 := hlt a (by simp)
            omega
  haveI : IsTrans (ℕ × ℕ) (fun e f : ℕ × ℕ => e.1 < f.1) :=
    ⟨fun _ _ _ h1 h2 => lt_trans h1 h2⟩
  exact List.chain'_iff_pairwise.mp hchain2

theorem countP_source_eq_one {path : List (ℕ × ℕ)} {e : ℕ × ℕ}
    (hpw : List.Pairwise (fun a b : ℕ × ℕ => a.1 < b.1) path) (he : e ∈ path) :
    path.countP (fun f => decide (e.1 = f.1)) = 1 := by
  induction path with
  | nil => cases he
  | cons a t ih =>
      rw [List.pairwise_cons] at hpw
      rw [List.countP_cons]
      rcases List.mem_cons.mp he with rfl | het
      · have h0 : t.countP (fun f => decide (e.1 = f.1)) = 0 := by
          apply List.countP_eq_zero.mpr
          intro f hf
          have := hpw.1 f hf
          simp only [decide_eq_true_eq]
          omega
        simp [h0]
      · have h1 : ¬ (e.1 = a.1) := by
          have := hpw.1 e het
          omega
        rw [ih hpw.2 het]
        simp [h1]

theorem countP_edge_eq_one {path : List (ℕ × ℕ)} {e : ℕ × ℕ}
    (hpw : List.Pairwise (fun a b : ℕ × ℕ => a.1 < b.1) path) (he : e ∈ path) :
    path.countP (fun f => decide (e.1 = f.1 ∧ e.2 = f.2)) = 1 := by
  induction path with
  | nil => cases he
  | cons a t ih =>
      rw [List.pairwise_cons] at hpw
      rw [List.countP_cons]
      rcases List.mem_cons.mp he with rfl | het
      · have h0 : t.countP (fun f => decide (e.1 = f.1 ∧ e.2 = f.2)) = 0 := by
          apply List.countP_eq_zero.mpr
          intro f hf
          have := hpw.1 f hf
          simp only [decide_eq_true_eq, not_and]
          omega
        rw [h0]
        simp
      · have h1 : ¬ (e.1 = a.1 ∧ e.2 = a.2) := by
          have := hpw.1 e het
          omega
        rw [ih hpw.2 het]
        simp [h1]

theorem leaves_children_nil {k d x : ℕ} (hx : x ∈ leavesModel k d) :
    childrenModel k d x = [] := by
  unfold leavesModel at hx
  rw [List.mem_filter] at hx
  have h1 : outDeg k d x = 0 := by
    have := hx.2
    simp only [Bool.and_eq_true, decide_eq_true_eq] at this
    exact this.1
  exact List.length_eq_zero.mp h1

theorem rootPath_source_ne_leaf {k d : ℕ} {path : List (ℕ × ℕ)}
    (hchild : ∀ e ∈ path, e.2 ∈ childrenModel k d e.1)
    (hleaf : pathLeaf path ∈ leavesModel k d) :
    ∀ e ∈ path, e.1 ≠ pathLeaf path := by
  intro e he hcontra
  have h1 : childrenModel k d e.1 ≠ [] := by
    intro h0
    have := hchild e he
    rw [h0] at this
    cases this
  rw [hcontra] at h1
  exact h1 (leaves_children_nil hleaf)

theorem rootPath_head_mem {path : List (ℕ × ℕ)} (hne : path ≠ [])
    (hhead : path.head?.map Prod.fst = some 0) : ∃ e, e ∈ path ∧ e.1 = 0 := by
  cases path with
  | nil => exact absurd rfl hne
  | cons a t =>
      have ha : a.1 = 0 := by simpa using hhead
      exact ⟨a, List.mem_cons_self a t, ha⟩

theorem simulate_root_succ {alg : String} {k d : ℕ} {rexp rlog : ℚ → ℚ} {τ : ℚ}
    {path : List (ℕ × ℕ)} {v : ℚ} (hk : 1 ≤ k)
    (hpath : IsRootPath k d path) (st : TreeState) :
    (simulate alg k d rexp rlog τ path v st).nodeN 0 = st.nodeN 0 + 1 := by
  obtain ⟨hne, hhead, hchild, hchain, hleaf⟩ := hpath
  obtain ⟨e0, he0mem, he0⟩ := rootPath_head_mem hne hhead
  have hpw := rootPath_pairwise hk hchild hchain
  have hcount : path.countP (fun f => decide ((0 : ℕ) = f.1)) = 1 := by
    have h1 := countP_source_eq_one hpw he0mem
    rw [he0] at h1
    exact h1
  have hnotleaf : (0 : ℕ) ≠ pathLeaf path := by
    have h2 := rootPath_source_ne_leaf hchild hleaf e0 he0mem
    rw [he0] at h2
    exact h2
  rw [simulate_nodeN _ _ _ _ _ _ _ _ _ _ hne, hcount, if_neg hnotleaf]

theorem runModel_root_count {alg : String} {k d : ℕ} {rexp rlog : ℚ → ℚ} {τ : ℚ}
    {sims : List (List (ℕ × ℕ) × ℚ)} (hk : 1 ≤ k)
    (hsims : ∀ p ∈ sims, IsRootPath k d p.1) (st : TreeState) :
    (runModel alg k d rexp rlog τ sims st).nodeN 0 = st.nodeN 0 + sims.length := by
  unfold runModel
  induction sims generalizing st with
  | nil => simp
  | cons p t ih =>
      rw [List.foldl_cons]
      rw [ih (fun q hq => hsims q (by simp [hq]))]
      have h1 : (simulate alg k d rexp rlog τ p.1 p.2 (resetModel st)).nodeN 0
          = (resetModel st).nodeN 0 + 1 :=
        simulate_root_succ hk (hsims p (by simp)) _
      have h2 : (resetModel st).nodeN 0 = st.nodeN 0 := rfl
      rw [h1, h2, List.length_cons]
      omega

/-- C9.  Each simulation increments by exactly one the visit count of the
leaf it reaches, of every edge of the walked root-to-leaf path, and of
every internal node of the path (the edge sources, root included); hence
run on a freshly constructed tree (all counts 0) leaves the root with
N equal to the number of simulations. -/
theorem c9_visit_counts (alg : String) (k d : ℕ) (rexp rlog : ℚ → ℚ) (τ : ℚ)
    (st : TreeState) (path : List (ℕ × ℕ)) (v : ℚ)
    (sims : List (List (ℕ × ℕ) × ℚ))
    (hk : 1 ≤ k) (hpath : IsRootPath k d path)
    (hsims : ∀ p ∈ sims, IsRootPath k d p.1) (hfresh : st.nodeN 0 = 0) :
    (simulate alg k d rexp rlog τ path v st).nodeN (pathLeaf path)
        = st.nodeN (pathLeaf path) + 1 ∧
    (∀ e ∈ path, (simulate alg k d rexp rlog τ path v st).edgeN e.1 e.2
        = st.edgeN e.1 e.2 + 1) ∧
    (∀ e ∈ path, (simulate alg k d rexp rlog τ path v st).nodeN e.1
        = st.nodeN e.1 + 1) ∧
    (runModel alg k d rexp rlog τ sims st).nodeN 0 = sims.length := by
  obtain ⟨hne, hhead, hchild, hchain, hleaf⟩ := hpath
  have hpw := rootPath_pairwise hk hchild hchain
  refine ⟨?_, ?_, ?_, ?_⟩
  · have h0 : path.countP (fun f => decide (pathLeaf path = f.1)) = 0 := by
      apply List.countP_eq_zero.mpr
      intro f hf
      simp only [decide_eq_true_eq]
      exact fun hc => (rootPath_source_ne_leaf hchild hleaf f hf) hc.symm
    rw [simulate_nodeN _ _ _ _ _ _ _ _ _ _ hne, h0, if_pos rfl]
  · intro e he
    rw [simulate_edgeN _ _ _ _ _ _ _ _ _ _ _ hne, countP_edge_eq_one hpw he]
  · intro e he
    have hc1 := countP_source_eq_one hpw he
    have hne2 : e.1 ≠ pathLeaf path := rootPath_source_ne_leaf hchild hleaf e he
    rw [simulate_nodeN _ _ _ _ _ _ _ _ _ _ hne, hc1, if_neg hne2]
  · rw [runModel_root_count hk hsims st, hfresh]
    omega

/-- C9 witness: two simulations along the only path of the k = 1, d = 1
tree, starting from the all-zero state, leave the root with N = 2. -/
theorem c9_visit_counts_witness :
    (1 ≤ 1 ∧ IsRootPath 1 1 [(0, 1)] ∧
      (TreeState.mk (fun _ => 0) (fun _ => 0) (fun _ _ => 0) (fun _ _ => 0)
        (fun _ _ => 0) (fun _ => 0) (fun _ => []) 0 [] 0).nodeN 0 = 0) ∧
    (runModel "uct" 1 1 (fun x => x) (fun x => x) 1
      [([(0, 1)], 0), ([(0, 1)], 0)]
      (TreeState.mk (fun _ => 0) (fun _ => 0) (fun _ _ => 0) (fun _ _ => 0)
        (fun _ _ => 0) (fun _ => 0) (fun _ => []) 0 [] 0)).nodeN 0 = 2 := by
  have hc : childrenModel 1 1 0 = [1] := by decide
  have hl : leavesModel 1 1 = [1] := by decide
  have hpath : IsRootPath 1 1 [(0, 1)] := by
    refine ⟨by simp, by simp, ?_, by simp, ?_⟩
    · intro e he
      simp only [List.mem_singleton] at he
      subst he
      simp [hc]
    · simp [pathLeaf, hl]
  refine ⟨⟨le_refl 1, hpath, rfl⟩, ?_⟩
  exact (c9_visit_counts "uct" 1 1 (fun x => x) (fun x => x) 1
      (TreeState.mk (fun _ => 0) (fun _ => 0) (fun _ _ => 0) (fun _ _ => 0)
        (fun _ _ => 0) (fun _ => 0) (fun _ => []) 0 [] 0)
      [(0, 1)] 0 [([(0, 1)], 0), ([(0, 1)], 0)]
      (le_refl 1) hpath
      (by
        intro p hp
        rcases List.mem_cons.mp hp with h | h2
        · rw [h]; exact hpath
        · rcases List.mem_singleton.mp h2 with rfl
          exact hpath)
      rfl).2.2.2

theorem treeSize_eq_mul_internal (k δ : ℕ) :
    treeSize k δ = k * internalCount k δ + 1 := by
  cases δ with
  | zero => rfl
  | succ m =>
      show 1 + k * treeSize k m = k * treeSize k m + 1
      omega

theorem treeSize_le_succ {k : ℕ} (hk : 1 ≤ k) (δ : ℕ) :
    treeSize k δ ≤ treeSize k (δ + 1) := by
  show treeSize k δ ≤ 1 + k * treeSize k δ
  nlinarith [treeSize_pos k δ]

theorem treeSize_mono {k : ℕ} (hk : 1 ≤ k) {i j : ℕ} (h : i ≤ j) :
    treeSize k i ≤ treeSize k j := by
  induction j with
  | zero =>
      have : i = 0 := by omega
      subst this
      exact le_refl _
  | succ j ih =>
      by_cases hij : i = j + 1
      · subst hij
        exact le_refl _
      · exact (ih (by omega)).trans (treeSize_le_succ hk j)

theorem childrenModel_getD {k d state a : ℕ} (hint : state < internalCount k d)
    (ha : a < k) :
    (childrenModel k d state).getD a 0 = k * state + 1 + a := by
  unfold childrenModel
  rw [if_pos hint]
  rw [List.getD_eq_getElem _ _ (by simp [ha])]
  simp

theorem child_level {k δ state a : ℕ} (hk : 1 ≤ k) (ha : a < k)
    (hlo : internalCount k δ ≤ state) (hhi : state < treeSize k δ) :
    internalCount k (δ + 1) ≤ k * state + 1 + a ∧
    k * state + 1 + a < treeSize k (δ + 1) := by
  have hmul : treeSize k δ = k * internalCount k δ + 1 := treeSize_eq_mul_internal k δ
  have hint1 : internalCount k (δ + 1) = treeSize k δ := rfl
  have hsz1 : treeSize k (δ + 1) = 1 + k * treeSize k δ := rfl
  constructor
  · rw [hint1, hmul]
    have h1 : k * internalCount k δ ≤ k * state := Nat.mul_le_mul_left k hlo
    omega
  · rw [hsz1]
    have h1 : k * (state + 1) ≤ k * treeSize k δ := Nat.mul_le_mul_left k (by omega)
    have h2 : k * (state + 1) = k * state + k := Nat.mul_succ k state
    omega

theorem navModel_spec (k d : ℕ) (oracle : ℕ → ℕ) (hk : 1 ≤ k)
    (horacle : ∀ s, oracle s < k) :
    ∀ (r extra δ state : ℕ), δ + (r + 1) = d →
      internalCount k δ ≤ state → state < treeSize k δ →
      (navModel k d oracle (r + 1 + extra) state).length = r + 1 ∧
      (navModel k d oracle (r + 1 + extra) state).head?.map Prod.fst = some state ∧
      (∀ e ∈ navModel k d oracle (r + 1 + extra) state,
        e.2 ∈ childrenModel k d e.1) ∧
      List.Chain' (fun e f : ℕ × ℕ => e.2 = f.1)
        (navModel k d oracle (r + 1 + extra) state) ∧
      pathLeaf (navModel k d oracle (r + 1 + extra) state) ∈ leavesModel k d := by
  intro r
  induction r with
  | zero =>
      intro extra δ state hδ hlo hhi
      have hd1 : 1 ≤ d := by omega
      have hδd : δ + 1 = d := by omega
      have hint : state < internalCount k d := by
        have h1 : treeSize k δ ≤ internalCount k d := by
          obtain ⟨m, rfl⟩ : ∃ m, d = m + 1 := ⟨d - 1, by omega⟩
          show treeSize k δ ≤ treeSize k m
          exact treeSize_mono hk (by omega)
        omega
      have ha := horacle state
      have hnextval : (childrenModel k d state).getD (oracle state) 0 =
          k * state + 1 + oracle state := childrenModel_getD hint ha
      have hchild := child_level (δ := δ) hk ha hlo hhi
      have hnextmem : k * state + 1 + oracle state ∈ childrenModel k d state := by
        rw [mem_childrenModel]
        exact ⟨hint, oracle state, ha, rfl⟩
      have hleafmem : k * state + 1 + oracle state ∈ leavesModel k d := by
        rw [mem_leavesModel hk hd1]
        rw [← hδd]
        exact ⟨hchild.1, hchild.2⟩
      show _ ∧ _ ∧ _ ∧ _ ∧ _
      rw [show 0 + 1 + extra = extra + 1 from by omega]
      unfold navModel
      dsimp only
      rw [hnextval, if_pos hleafmem]
      refine ⟨rfl, rfl, ?_, ?_, ?_⟩
      · intro e he
        rcases List.mem_singleton.mp he with rfl
        exact hnextmem
      · simp
      · show pathLeaf [(state, k * state + 1 + oracle state)] ∈ leavesModel k d
        unfold pathLeaf
        simpa using hleafmem
  | succ r ih =>
      intro extra δ state hδ hlo hhi
      have hd1 : 1 ≤ d := by omega
      have hint : state < internalCount k d := by
        have h1 : treeSize k δ ≤ internalCount k d := by
          obtain ⟨m, rfl⟩ : ∃ m, d = m + 1 := ⟨d - 1, by omega⟩
          show treeSize k δ ≤ treeSize k m
          exact treeSize_mono hk (by omega)
        omega
      have ha := horacle state
      have hnextval : (childrenModel k d state).getD (oracle state) 0 =
          k * state + 1 + oracle state := childrenModel_getD hint ha
      have hchild := child_level (δ := δ) hk ha hlo hhi
      have hnextmem : k * state + 1 + oracle state ∈ childrenModel k d state := by
        rw [mem_childrenModel]
        exact ⟨hint, oracle state, ha, rfl⟩
      have hnotleaf : k * state + 1 + oracle state ∉ leavesModel k d := by
        rw [mem_leavesModel hk hd1]
        intro hcontra
        have h1 : treeSize k (δ + 1) ≤ internalCount k d := by
          obtain ⟨m, rfl⟩ : ∃ m, d = m + 1 := ⟨d - 1, by omega⟩
          show treeSize k (δ + 1) ≤ treeSize k m
          exact treeSize_mono hk (by omega)
        have := hchild.2
        omega
      obtain ⟨hlen, hhead, hmem, hchain, hleaf⟩ :=
        ih extra (δ + 1) (k * state + 1 + oracle state) (by omega) hchild.1 hchild.2
      show _ ∧ _ ∧ _ ∧ _ ∧ _
      rw [show r + 1 + 1 + extra = (r + 1 + extra) + 1 from by omega]
      unfold navModel
      dsimp only
      rw [hnextval, if_neg hnotleaf]
      obtain ⟨y, ys, hys⟩ : ∃ y ys,
          navModel k d oracle (r + 1 + extra) (k * state + 1 + oracle state) = y :: ys := by
        cases hnv : navModel k d oracle (r + 1 + extra) (k * state + 1 + oracle state) with
        | nil => rw [hnv] at hlen; simp at hlen
        | cons y ys => exact ⟨y, ys, rfl⟩
      rw [hys] at hlen hhead hmem hchain hleaf ⊢
      have hy1 : y.1 = k * state + 1 + oracle state := by
        simpa using hhead
      refine ⟨by simpa using hlen, by simp, ?_, ?_, ?_⟩
      · intro e he
        rcases List.mem_cons.mp he with rfl | he2
        · exact hnextmem
        · exact hmem e he2
      · rw [List.chain'_cons]
        exact ⟨hy1.symm, hchain⟩
      · unfold pathLeaf at hleaf ⊢
        rwa [List.getLast?_cons_cons]

/-- C10.  On a tree of depth d >= 1 with in-range selection actions, the
navigation walk terminates after exactly d steps: with fuel d (and any
surplus, so extra fuel is never consumed) it returns a root-to-leaf path
of exactly d edges. -/
theorem c10_navigate_depth (k d : ℕ) (oracle : ℕ → ℕ) (extra : ℕ)
    (hk : 1 ≤ k) (hd : 1 ≤ d) (horacle : ∀ s, oracle s < k) :
    (navModel k d oracle (d + extra) 0).length = d ∧
    IsRootPath k d (navModel k d oracle (d + extra) 0) := by
  obtain ⟨r, rfl⟩ : ∃ r, d = r + 1 := ⟨d - 1, by omega⟩
  obtain ⟨hlen, hhead, hmem, hchain, hleaf⟩ :=
    navModel_spec k (r + 1) oracle hk horacle r extra 0 0
      (by omega) (by simp [internalCount]) (by simp [treeSize])
  refine ⟨hlen, ?_, hhead, hmem, hchain, hleaf⟩
  intro h0
  rw [h0] at hlen
  simp at hlen

/-- C10 witness: the walk on the k = 2, d = 1 tree with the always-0
selection oracle and no surplus fuel. -/
theorem c10_navigate_depth_witness :
    ((1 ≤ 2 ∧ 1 ≤ 1) ∧ (∀ s : ℕ, (fun _ : ℕ => 0) s < 2)) ∧
    ((navModel 2 1 (fun _ => 0) (1 + 0) 0).length = 1 ∧
      IsRootPath 2 1 (navModel 2 1 (fun _ => 0) (1 + 0) 0)) :=
  ⟨⟨⟨by omega, by omega⟩, fun _ => by simp⟩,
    c10_navigate_depth 2 1 (fun _ => 0) 0 (by omega) (by omega) (fun _ => by simp)⟩
